import Mathlib

/-!
Verification development for the orix core: rotation/orientation algebra under
crystallographic symmetry, fundamental-zone reduction, symmetry-aware distances,
chunked evaluation, spherical sampling utilities, Miller index conventions and
pole-density normalization.

The library code itself is not part of the repository snapshot (only the
documentation notebooks and CI workflows are), so the operations below are
modelled from the specification and from the notebook callers, as marked on
each definition.  Rotations are unit quaternions, modelled over `Quaternion ℝ`
from Mathlib; floating-point arithmetic is idealized as real arithmetic (the
specification's numeric contract phrases every comparison up to tolerance).
-/

noncomputable section

namespace Orix

open Quaternion Real

/-- Modelled from the spec (§4.1): `angle(q) = 2·arccos(clamp(|w|, 0, 1))`,
always in `[0, π]`; the absolute value accounts for the double cover. -/
def angle (q : Quaternion ℝ) : ℝ :=
  2 * Real.arccos (min |q.re| 1)

/-- Modelled from the spec (§4.1): `distance(a, b) = angle(inverse(a)·b)`;
for a unit quaternion the inverse is the conjugate (star). -/
def qdist (a b : Quaternion ℝ) : ℝ :=
  angle (star a * b)

/-- Minimum of a list of reals with a default/initial value. -/
def listMin (d : ℝ) : List ℝ → ℝ
  | [] => d
  | x :: xs => min x (listMin d xs)

/-- A finite symmetry group, modelled from the spec (§3, §4.2): a finite set of
unit quaternions closed under composition and conjugation (inversion), always
containing the identity. -/
structure IsSymGroup (G : List (Quaternion ℝ)) : Prop where
  one_mem : (1 : Quaternion ℝ) ∈ G
  unit : ∀ g ∈ G, normSq g = 1
  mul_mem : ∀ g ∈ G, ∀ h ∈ G, g * h ∈ G
  star_mem : ∀ g ∈ G, star g ∈ G

/-- Modelled from the spec (§4.3): the list of symmetry equivalents
`g1 · m · g2` of a (mis)orientation `m` for the group pair `(G1, G2)`; for an
orientation with a single group, `G2 = [1]`. -/
def candidates (G1 G2 : List (Quaternion ℝ)) (m : Quaternion ℝ) : List (Quaternion ℝ) :=
  G1.flatMap fun g => G2.map fun h => g * m * h

/-- Modelled from the spec (§4.3): symmetry-aware distance between two
(mis)orientations, the geodesic distance on the quotient space
`SO(3)/(G1×G2)`: the minimum over all symmetry equivalents of the second
argument of the rotation angle of `inverse(a)·(g1·b·g2)`. -/
def symDist (G1 G2 : List (Quaternion ℝ)) (a b : Quaternion ℝ) : ℝ :=
  listMin (qdist a b) ((candidates G1 G2 b).map (qdist a))

/-- Modelled from the spec (§4.3): `get_distance_matrix(ms)` — the dense N×N
matrix of symmetry-aware distances `D[i,j]` between all pairs of the N
(mis)orientations `ms`. -/
def get_distance_matrix (G1 G2 : List (Quaternion ℝ)) (ms : List (Quaternion ℝ)) :
    Fin ms.length → Fin ms.length → ℝ :=
  fun i j => symDist G1 G2 (ms.get i) (ms.get j)

/-- First-minimizer selection: walk the list and replace the current best
candidate only on a strict decrease of the rotation angle, so ties are broken
deterministically in favour of the earliest candidate in enumeration order
(the documented fixed total order of the spec, §4.3). -/
def pickMin : Quaternion ℝ → List (Quaternion ℝ) → Quaternion ℝ
  | best, [] => best
  | best, c :: cs => if angle c < angle best then pickMin c cs else pickMin best cs

/-- Modelled from the spec (§4.3): `map_into_symmetry_reduced_zone` — choose
the symmetry equivalent `g1·m·g2` of minimal rotation angle, ties broken by
the fixed enumeration order of the candidate set (identity first, matching the
symmetry element order of the registry). -/
def map_into_symmetry_reduced_zone (G1 G2 : List (Quaternion ℝ)) (m : Quaternion ℝ) :
    Quaternion ℝ :=
  match candidates G1 G2 m with
  | [] => m
  | c :: cs => pickMin c cs

/-- Modelled from the spec (§4.1): `apply(q, v)` — the sandwich product
`q·v·q⁻¹` rotating a vector embedded as a pure quaternion; for a unit
quaternion the inverse is the conjugate. -/
def qapply (q v : Quaternion ℝ) : Quaternion ℝ :=
  q * v * star q

/-- Modelled from the spec (§4.1): the outer (all-pairs) product of a batch of
rotations with a batch of vectors: row `i` holds rotation `i` applied to every
vector, in input order. -/
def outerApply (rs vs : List (Quaternion ℝ)) : List (List (Quaternion ℝ)) :=
  rs.map fun r => vs.map (qapply r)

/-- Chunk a list into consecutive blocks of size `k + 1`, preserving order. -/
def chunksSucc (k : ℕ) : List α → List (List α)
  | [] => []
  | x :: xs => (x :: xs.take k) :: chunksSucc k (xs.drop k)
  termination_by l => l.length
  decreasing_by simp [List.length_drop]; omega

/-- Modelled from the spec (§4.1, §5): the block partition used by chunked
evaluation — the input sequence is split into consecutive blocks of at most
`chunk_size` elements (a nonpositive chunk size is treated as 1), processed
independently and reassembled in the original index order. -/
def toBlocks (chunk_size : ℕ) (l : List α) : List (List α) :=
  chunksSucc (chunk_size - 1) l

/-- Modelled from the spec (§4.1): chunked/lazy evaluation of the
rotation–vector outer product: rows are produced block by block of at most
`chunk_size` rows and concatenated in the original order. -/
def outerApplyChunked (chunk_size : ℕ) (rs vs : List (Quaternion ℝ)) :
    List (List (Quaternion ℝ)) :=
  ((toBlocks chunk_size rs).map fun blk => blk.map fun r => vs.map (qapply r)).flatten

/-- Row-of-lists form of the distance matrix of §4.3 (row `i` holds the
distances from (mis)orientation `i` to every other). -/
def distRows (G1 G2 ms : List (Quaternion ℝ)) : List (List ℝ) :=
  ms.map fun a => ms.map fun b => symDist G1 G2 a b

/-- Modelled from the spec (§4.3, §5): chunked computation of the distance
matrix: the rows are produced in independent blocks of at most `chunk_size`
and concatenated in the original index order. -/
def distRowsChunked (chunk_size : ℕ) (G1 G2 ms : List (Quaternion ℝ)) : List (List ℝ) :=
  ((toBlocks chunk_size ms).map fun blk =>
    blk.map fun a => ms.map fun b => symDist G1 G2 a b).flatten

/-- Modelled from the spec (§8) and the crystal-directions notebook: a point
group acting on crystal directions, as a duplicate-free finite list of
orthogonal operations (proper and improper), containing the identity and
closed under composition and inversion. -/
structure IsPointGroupM (G : List (Matrix (Fin 3) (Fin 3) ℚ)) : Prop where
  nodup : G.Nodup
  one_mem : (1 : Matrix (Fin 3) (Fin 3) ℚ) ∈ G
  mul_mem : ∀ g ∈ G, ∀ h ∈ G, g * h ∈ G
  inv_mem : ∀ g ∈ G, ∃ g' ∈ G, g' * g = 1 ∧ g * g' = 1

/-- Modelled from the spec (§8) and the crystal-directions notebook:
`symmetrise(v, unique=True)` — the images of a direction under every operation
of the point group, in registry order, with duplicates removed. -/
def symmetrise (G : List (Matrix (Fin 3) (Fin 3) ℚ)) (v : Fin 3 → ℚ) : List (Fin 3 → ℚ) :=
  (G.map fun g => g.mulVec v).dedup

/-- The 32 crystallographic point groups (Schoenflies names), as enumerated by
the symmetry registry (§4.2). -/
inductive PointGroup
  | C1 | Ci
  | C2 | Cs | C2h
  | D2 | C2v | D2h
  | C4 | S4 | C4h | D4 | C4v | D2d | D4h
  | C3 | S6 | D3 | C3v | D3d
  | C6 | C3h | C6h | D6 | C6v | D3h | D6h
  | T | Th | O | Td | Oh
deriving DecidableEq

/-- The 11 Laue classes (§4.2): the centrosymmetric closures of the 32 point
groups. -/
inductive LaueClass
  | Ci | C2h | D2h | C4h | D4h | S6 | D3d | C6h | D6h | Th | Oh
deriving DecidableEq

/-- Modelled from the spec (§4.2) and the inverse-pole-figures notebook's
Laue-class table: each point group's Laue class, obtained by mapping
non-centrosymmetric groups to their centrosymmetric closure. -/
def laue : PointGroup → LaueClass
  | .C1 | .Ci => .Ci
  | .C2 | .Cs | .C2h => .C2h
  | .D2 | .C2v | .D2h => .D2h
  | .C4 | .S4 | .C4h => .C4h
  | .D4 | .C4v | .D2d | .D4h => .D4h
  | .C3 | .S6 => .S6
  | .D3 | .C3v | .D3d => .D3d
  | .C6 | .C3h | .C6h => .C6h
  | .D6 | .C6v | .D3h | .D6h => .D6h
  | .T | .Th => .Th
  | .O | .Td | .Oh => .Oh

/-- Whether the point group is itself one of the 11 Laue classes (the
centrosymmetric groups). -/
def isLaue : PointGroup → Bool
  | .Ci | .C2h | .D2h | .C4h | .D4h | .S6 | .D3d | .C6h | .D6h | .Th | .Oh => true
  | _ => false

/-- The error taxonomy entry of §7 for symmetry/sector failures. -/
inductive SymmetryError
  | noSector
deriving DecidableEq

/-- Modelled from the spec (§4.2) and the s2-sampling and inverse-pole-figures
notebooks: reading `point_group.fundamental_sector`.  The geometry of the 11
Laue sectors is outside this development (the library sources are not in the
repository snapshot); what the claim turns on is recorded exactly: for which
groups the read succeeds and which sector (identified by its Laue class) is
returned.  The s2-sampling tutorial reads `fundamental_sector` for every one
of the 32 point groups and filters a mesh with it, without error, and the
inverse-pole-figures tutorial documents that only the 11 Laue sectors are
defined, the Laue class of a non-centrosymmetric group being used in its
stead. -/
def fundamental_sector (g : PointGroup) : Except SymmetryError LaueClass :=
  .ok (laue g)

/-- The index conventions of the Miller class (crystal-directions notebook):
cartesian, direct `[uvw]`, reciprocal `(hkl)`, Miller–Bravais `(hkil)` and
Weber `[UVTW]`. -/
inductive CoordinateFormat
  | xyz | uvw | hkl | hkil | UVTW
deriving DecidableEq

/-- Modelled from the spec (§3, §6): a crystal lattice, given by its direct
structure matrix (columns the crystal axes in cartesian coordinates) together
with its inverse, over exact rational arithmetic. -/
structure LatticeQ where
  A : Matrix (Fin 3) (Fin 3) ℚ
  Ainv : Matrix (Fin 3) (Fin 3) ℚ
  left_inv : Ainv * A = 1
  right_inv : A * Ainv = 1

/-- Modelled from the crystal-directions notebook: a `Miller` instance stores
its vectors with respect to the cartesian coordinate system internally
(`.data`), together with the phase's lattice and the coordinate format used
for display and index access. -/
structure Miller where
  data : Fin 3 → ℚ
  lattice : LatticeQ
  coordinate_format : CoordinateFormat

/-- Direct-lattice indices `[uvw]` of a Miller vector, computed from the
stored cartesian data. -/
def Miller.uvw (m : Miller) : Fin 3 → ℚ :=
  m.lattice.Ainv.mulVec m.data

/-- Reciprocal-lattice indices `(hkl)` of a Miller vector, computed from the
stored cartesian data (the reciprocal basis is the inverse transpose of the
direct basis). -/
def Miller.hkl (m : Miller) : Fin 3 → ℚ :=
  m.lattice.A.transpose.mulVec m.data

/-- Modelled from the crystal-directions notebook: the Miller–Bravais indices
`(hkil)`; `h`, `k`, `l` agree with `(hkl)` and `i = -(h + k)`. -/
def Miller.hkil (m : Miller) : ℚ × ℚ × ℚ × ℚ :=
  (m.hkl 0, m.hkl 1, -(m.hkl 0 + m.hkl 1), m.hkl 2)

/-- Modelled from the crystal-directions notebook (DeGraef's convention): the
Weber symbols `[UVTW]` with `U = (2u - v)/3`, `V = (2v - u)/3`,
`T = -(u + v)/3`, `W = w`. -/
def Miller.UVTW (m : Miller) : ℚ × ℚ × ℚ × ℚ :=
  ((2 * m.uvw 0 - m.uvw 1) / 3, (2 * m.uvw 1 - m.uvw 0) / 3,
    -((m.uvw 0 + m.uvw 1) / 3), m.uvw 2)

/-- Construction of a Miller instance from direct-lattice indices `[uvw]`:
the cartesian data is the lattice combination of the crystal axes. -/
def Miller.fromUvw (lat : LatticeQ) (u v w : ℚ) : Miller :=
  ⟨lat.A.mulVec ![u, v, w], lat, .uvw⟩

/-- Construction from reciprocal-lattice indices `(hkl)`. -/
def Miller.fromHkl (lat : LatticeQ) (h k l : ℚ) : Miller :=
  ⟨lat.Ainv.transpose.mulVec ![h, k, l], lat, .hkl⟩

/-- Modelled from the crystal-directions notebook: construction from
Miller–Bravais indices `(hkil)`; the convention `h + k + i = 0` is validated,
`i` being redundant, and violating input is rejected. -/
def Miller.fromHkil (lat : LatticeQ) (h k i l : ℚ) : Option Miller :=
  if h + k + i = 0 then
    some { Miller.fromHkl lat h k l with coordinate_format := .hkil }
  else
    none

/-- Modelled from the crystal-directions notebook: construction from Weber
symbols `[UVTW]`; the convention `U + V + T = 0` is validated and the direct
indices are recovered as `u = U - T`, `v = V - T`, `w = W`. -/
def Miller.fromUVTW (lat : LatticeQ) (U V T W : ℚ) : Option Miller :=
  if U + V + T = 0 then
    some { Miller.fromUvw lat (U - T) (V - T) W with coordinate_format := .UVTW }
  else
    none

/-- Modelled from the crystal-directions notebook: reassigning the coordinate
format of a Miller instance changes only the format tag, never the stored
cartesian vector. -/
def Miller.setCoordinateFormat (m : Miller) (f : CoordinateFormat) : Miller :=
  { m with coordinate_format := f }

/-- Modelled from the spec (§4.5): MRD normalization of a pole-density
estimate — each cell's accumulated weight is divided by the weight expected
in that cell under a uniform distribution of the same total weight over the
`n` equal-area cells, namely `total/n`. -/
def mrdDensity (w : List ℝ) : List ℝ :=
  w.map fun wi => wi / (w.sum / w.length)

/-- Modelled from the spec (§8): the idealized per-cell standard deviation of
the MRD-normalized density of `N` independent uniformly-random directions on
an equal-area mesh of `n` cells: each cell's count is Binomial(N, 1/n), so the
normalized standard deviation is `√((n-1)/N)`. -/
def randomDensityStd (n N : ℕ) : ℝ :=
  Real.sqrt (((n : ℝ) - 1) / N)

/-- The Σ7a twin misorientation of the clustering notebook (Krakow et al.):
a rotation of 64.40° about the axis (1, 0, 0), as the unit quaternion
`(cos(θ/2), sin(θ/2)·(1,0,0))` with `θ = 64.40°` in radians. -/
def sigma7a : Quaternion ℝ :=
  ⟨Real.cos (64.40 * π / 180 / 2), Real.sin (64.40 * π / 180 / 2), 0, 0⟩

/-- Discrete arithmetic for the hexagonal symmetry registry entry: a
quaternion with components in ℤ√3, representing twice a unit quaternion of
the D6 double cover exactly (each component of those is of the form
`(a + b·√3)/2` with integers `a`, `b`). -/
structure QZ3 where
  w : Zsqrtd 3
  x : Zsqrtd 3
  y : Zsqrtd 3
  z : Zsqrtd 3
deriving DecidableEq

/-- Hamilton product on discrete quaternions. -/
def QZ3.mul (p q : QZ3) : QZ3 :=
  ⟨p.w * q.w - p.x * q.x - p.y * q.y - p.z * q.z,
   p.w * q.x + p.x * q.w + p.y * q.z - p.z * q.y,
   p.w * q.y - p.x * q.z + p.y * q.w + p.z * q.x,
   p.w * q.z + p.x * q.y - p.y * q.x + p.z * q.w⟩

/-- Quaternion conjugation on discrete quaternions. -/
def QZ3.conj (p : QZ3) : QZ3 :=
  ⟨p.w, -p.x, -p.y, -p.z⟩

/-- Doubling of a discrete quaternion (the product of two doubled unit
quaternions is twice the doubled product). -/
def QZ3.double (p : QZ3) : QZ3 :=
  ⟨(⟨2, 0⟩ : Zsqrtd 3) * p.w, (⟨2, 0⟩ : Zsqrtd 3) * p.x,
   (⟨2, 0⟩ : Zsqrtd 3) * p.y, (⟨2, 0⟩ : Zsqrtd 3) * p.z⟩

/-- Sum of squared components of a discrete quaternion (4 for the doubled
representation of a unit quaternion). -/
def QZ3.nrm (p : QZ3) : Zsqrtd 3 :=
  p.w * p.w + p.x * p.x + p.y * p.y + p.z * p.z

/-- Doubled quaternion of a rotation about the z-axis, from twice the cosine
and twice the sine of the half-angle. -/
def zrotD (c s : Zsqrtd 3) : QZ3 :=
  ⟨c, ⟨0, 0⟩, ⟨0, 0⟩, s⟩

/-- Doubled quaternion of a two-fold rotation about an in-plane axis at the
given azimuth (twice the cosine and twice the sine). -/
def protD (c s : Zsqrtd 3) : QZ3 :=
  ⟨⟨0, 0⟩, c, s, ⟨0, 0⟩⟩

/-- The 24 doubled elements of the D6 double cover: z-axis rotations by
multiples of 60° (twice the half-angle cosines/sines are `2·cos(kπ/6)`,
`2·sin(kπ/6) ∈ ℤ√3`) followed by the six in-plane two-fold axes, the identity
first. -/
def D6d : List QZ3 :=
  [zrotD ⟨2, 0⟩ ⟨0, 0⟩, zrotD ⟨0, 1⟩ ⟨1, 0⟩, zrotD ⟨1, 0⟩ ⟨0, 1⟩, zrotD ⟨0, 0⟩ ⟨2, 0⟩,
   zrotD ⟨-1, 0⟩ ⟨0, 1⟩, zrotD ⟨0, -1⟩ ⟨1, 0⟩, zrotD ⟨-2, 0⟩ ⟨0, 0⟩, zrotD ⟨0, -1⟩ ⟨-1, 0⟩,
   zrotD ⟨-1, 0⟩ ⟨0, -1⟩, zrotD ⟨0, 0⟩ ⟨-2, 0⟩, zrotD ⟨1, 0⟩ ⟨0, -1⟩, zrotD ⟨0, 1⟩ ⟨-1, 0⟩,
   protD ⟨2, 0⟩ ⟨0, 0⟩, protD ⟨0, 1⟩ ⟨1, 0⟩, protD ⟨1, 0⟩ ⟨0, 1⟩, protD ⟨0, 0⟩ ⟨2, 0⟩,
   protD ⟨-1, 0⟩ ⟨0, 1⟩, protD ⟨0, -1⟩ ⟨1, 0⟩, protD ⟨-2, 0⟩ ⟨0, 0⟩, protD ⟨0, -1⟩ ⟨-1, 0⟩,
   protD ⟨-1, 0⟩ ⟨0, -1⟩, protD ⟨0, 0⟩ ⟨-2, 0⟩, protD ⟨1, 0⟩ ⟨0, -1⟩, protD ⟨0, 1⟩ ⟨-1, 0⟩]

/-- The real value of an element of ℤ√3. -/
def zr (v : Zsqrtd 3) : ℝ :=
  v.re + v.im * Real.sqrt 3

/-- The unit quaternion represented by a doubled discrete element. -/
def QZ3.toQuat (p : QZ3) : Quaternion ℝ :=
  ⟨zr p.w / 2, zr p.x / 2, zr p.y / 2, zr p.z / 2⟩

/-- Modelled from the spec (§4.2) and the clustering notebook: the D6 (622)
point group entry of the symmetry registry, as a closed list of unit
quaternions — the 24 elements of its double cover, the identity first
(registry order). -/
def D6 : List (Quaternion ℝ) :=
  D6d.map QZ3.toQuat

/-! Basic facts about the rotation angle. -/

theorem re_mul_comm (a b : Quaternion ℝ) : (a * b).re = (b * a).re := by
  rw [Quaternion.mul_re, Quaternion.mul_re]; ring

theorem abs_re_le_one {q : Quaternion ℝ} (hq : normSq q = 1) : |q.re| ≤ 1 := by
  rw [← sq_le_one_iff_abs_le_one]
  have h := Quaternion.normSq_def' q
  nlinarith [sq_nonneg q.imI, sq_nonneg q.imJ, sq_nonneg q.imK]

theorem clamp_eq_abs {q : Quaternion ℝ} (hq : normSq q = 1) : min |q.re| 1 = |q.re| :=
  min_eq_left (abs_re_le_one hq)

theorem angle_nonneg (q : Quaternion ℝ) : 0 ≤ angle q :=
  mul_nonneg (by norm_num) (Real.arccos_nonneg _)

theorem angle_le_pi (q : Quaternion ℝ) : angle q ≤ π := by
  have h0 : (0 : ℝ) ≤ min |q.re| 1 := le_min (abs_nonneg _) one_pos.le
  have h := Real.arccos_le_pi_div_two.2 h0
  unfold angle
  linarith

theorem angle_one : angle (1 : Quaternion ℝ) = 0 := by
  simp [angle, Real.arccos_one]

theorem angle_star (q : Quaternion ℝ) : angle (star q) = angle q := by
  simp [angle]

theorem angle_neg (q : Quaternion ℝ) : angle (-q) = angle q := by
  simp [angle]

theorem angle_mul_comm (a b : Quaternion ℝ) : angle (a * b) = angle (b * a) := by
  unfold angle
  rw [re_mul_comm]

theorem angle_conj {u : Quaternion ℝ} (hu : normSq u = 1) (q : Quaternion ℝ) :
    angle (u * q * star u) = angle q := by
  rw [angle_mul_comm, ← mul_assoc, Quaternion.star_mul_self, hu]
  norm_num

/-! Basic facts about the quaternion distance. -/

theorem qdist_self {a : Quaternion ℝ} (ha : normSq a = 1) : qdist a a = 0 := by
  unfold qdist
  rw [Quaternion.star_mul_self, ha]
  norm_num [angle_one]

theorem qdist_comm (a b : Quaternion ℝ) : qdist a b = qdist b a := by
  unfold qdist
  rw [← angle_star (star a * b), star_mul, star_star]

theorem qdist_bi {u v : Quaternion ℝ} (hu : normSq u = 1) (hv : normSq v = 1)
    (p q : Quaternion ℝ) : qdist (u * p * v) (u * q * v) = qdist p q := by
  unfold qdist
  have key : star u * u = (1 : Quaternion ℝ) := by
    rw [Quaternion.star_mul_self, hu]; exact_mod_cast rfl
  have h1 : star (u * p * v) * (u * q * v) = star v * (star p * q) * v := by
    calc star (u * p * v) * (u * q * v)
        = star v * (star p * ((star u * u) * q)) * v := by
          simp only [star_mul]; noncomm_ring
      _ = star v * (star p * q) * v := by rw [key, one_mul]
  have h2 := angle_conj (u := star v) (by rwa [Quaternion.normSq_star]) (star p * q)
  rw [star_star] at h2
  rw [h1, h2]

theorem normSq_unit_mul {a b : Quaternion ℝ} (ha : normSq a = 1) (hb : normSq b = 1) :
    normSq (a * b) = 1 := by
  rw [map_mul, ha, hb, one_mul]

theorem normSq_unit_star {a : Quaternion ℝ} (ha : normSq a = 1) : normSq (star a) = 1 := by
  rwa [Quaternion.normSq_star]

theorem norm_eq_one_of_normSq {q : Quaternion ℝ} (h : normSq q = 1) : ‖q‖ = 1 := by
  have h2 := Quaternion.normSq_eq_norm_mul_self q
  rw [h] at h2
  rcases mul_self_eq_one_iff.1 h2.symm with h3 | h3
  · exact h3
  · nlinarith [norm_nonneg q]

theorem re_star_mul (a b : Quaternion ℝ) : (star a * b).re = (inner a b : ℝ) := by
  rw [re_mul_comm, ← Quaternion.inner_def]
  exact real_inner_comm a b

/-! The triangle inequality for the double-cover-invariant angle metric. -/

theorem arccos_antitone {x y : ℝ} (h : x ≤ y) : Real.arccos y ≤ Real.arccos x := by
  rw [Real.arccos_eq_pi_div_two_sub_arcsin, Real.arccos_eq_pi_div_two_sub_arcsin]
  exact sub_le_sub_left (Real.monotone_arcsin h) _

theorem arccos_abs_triangle {x y z : ℝ} (hx : |x| ≤ 1) (hy : |y| ≤ 1)
    (hkey : |x| * |y| - Real.sqrt (1 - x ^ 2) * Real.sqrt (1 - y ^ 2) ≤ |z|) :
    Real.arccos |z| ≤ Real.arccos |x| + Real.arccos |y| := by
  have hα0 : 0 ≤ Real.arccos |x| := Real.arccos_nonneg _
  have hβ0 : 0 ≤ Real.arccos |y| := Real.arccos_nonneg _
  rcases le_or_lt (π / 2) (Real.arccos |x| + Real.arccos |y|) with hcase | hcase
  · exact le_trans (Real.arccos_le_pi_div_two.2 (abs_nonneg z)) hcase
  · have hcos : Real.cos (Real.arccos |x| + Real.arccos |y|)
        = |x| * |y| - Real.sqrt (1 - x ^ 2) * Real.sqrt (1 - y ^ 2) := by
      rw [Real.cos_add, Real.cos_arccos (by linarith [abs_nonneg x]) hx,
        Real.cos_arccos (by linarith [abs_nonneg y]) hy,
        Real.sin_arccos, Real.sin_arccos, sq_abs, sq_abs]
    have h1 : Real.arccos |z| ≤ Real.arccos (Real.cos (Real.arccos |x| + Real.arccos |y|)) :=
      arccos_antitone (by rw [hcos]; exact hkey)
    rwa [Real.arccos_cos (by linarith) (by linarith [Real.pi_pos])] at h1

theorem inner_proj_expand {a b c : Quaternion ℝ} (hc : ‖c‖ = 1) :
    (inner (a - (inner a c : ℝ) • c) (b - (inner c b : ℝ) • c) : ℝ)
      = (inner a b : ℝ) - (inner a c : ℝ) * (inner c b : ℝ) := by
  simp only [inner_sub_left, inner_sub_right, real_inner_smul_left, real_inner_smul_right,
    real_inner_self_eq_norm_mul_norm, hc, real_inner_comm c a]
  ring

theorem norm_proj_eq {a c : Quaternion ℝ} (ha : ‖a‖ = 1) (hc : ‖c‖ = 1) :
    ‖a - (inner a c : ℝ) • c‖ = Real.sqrt (1 - (inner a c : ℝ) ^ 2) := by
  have haa : (inner a a : ℝ) = 1 := by rw [real_inner_self_eq_norm_mul_norm, ha, one_mul]
  have hcc : (inner c c : ℝ) = 1 := by rw [real_inner_self_eq_norm_mul_norm, hc, one_mul]
  rw [← Real.sqrt_mul_self (norm_nonneg (a - (inner a c : ℝ) • c)),
    ← real_inner_self_eq_norm_mul_norm]
  congr 1
  simp only [inner_sub_left, inner_sub_right, real_inner_smul_left, real_inner_smul_right,
    haa, hcc, real_inner_comm c a]
  ring

theorem inner_arccos_triangle {a b c : Quaternion ℝ}
    (ha : ‖a‖ = 1) (hb : ‖b‖ = 1) (hc : ‖c‖ = 1) :
    Real.arccos |(inner a b : ℝ)| ≤ Real.arccos |(inner a c : ℝ)| + Real.arccos |(inner c b : ℝ)| := by
  have hx : |(inner a c : ℝ)| ≤ 1 := by
    have := abs_real_inner_le_norm a c
    rwa [ha, hc, one_mul] at this
  have hy : |(inner c b : ℝ)| ≤ 1 := by
    have := abs_real_inner_le_norm c b
    rwa [hb, hc, one_mul] at this
  apply arccos_abs_triangle hx hy
  have hcs := abs_real_inner_le_norm (a - (inner a c : ℝ) • c) (b - (inner c b : ℝ) • c)
  rw [inner_proj_expand hc, norm_proj_eq ha hc] at hcs
  have hb' : ‖b - (inner c b : ℝ) • c‖ = Real.sqrt (1 - (inner c b : ℝ) ^ 2) := by
    have := norm_proj_eq hb hc
    rwa [real_inner_comm c b] at this
  rw [hb'] at hcs
  have habs : |(inner a c : ℝ) * (inner c b : ℝ)|
      - |(inner a b : ℝ) - (inner a c : ℝ) * (inner c b : ℝ)| ≤ |(inner a b : ℝ)| := by
    have h1 := abs_sub_abs_le_abs_sub ((inner a c : ℝ) * (inner c b : ℝ)) (inner a b : ℝ)
    rw [abs_sub_comm] at h1
    linarith
  calc |(inner a c : ℝ)| * |(inner c b : ℝ)|
      - Real.sqrt (1 - (inner a c : ℝ) ^ 2) * Real.sqrt (1 - (inner c b : ℝ) ^ 2)
      = |(inner a c : ℝ) * (inner c b : ℝ)|
        - Real.sqrt (1 - (inner a c : ℝ) ^ 2) * Real.sqrt (1 - (inner c b : ℝ) ^ 2) := by
        rw [abs_mul]
    _ ≤ |(inner a c : ℝ) * (inner c b : ℝ)|
        - |(inner a b : ℝ) - (inner a c : ℝ) * (inner c b : ℝ)| := by linarith
    _ ≤ |(inner a b : ℝ)| := habs

theorem qdist_triangle {a b c : Quaternion ℝ}
    (ha : normSq a = 1) (hb : normSq b = 1) (hc : normSq c = 1) :
    qdist a b ≤ qdist a c + qdist c b := by
  have hab : normSq (star a * b) = 1 := normSq_unit_mul (normSq_unit_star ha) hb
  have hac : normSq (star a * c) = 1 := normSq_unit_mul (normSq_unit_star ha) hc
  have hcb : normSq (star c * b) = 1 := normSq_unit_mul (normSq_unit_star hc) hb
  unfold qdist angle
  rw [clamp_eq_abs hab, clamp_eq_abs hac, clamp_eq_abs hcb,
    re_star_mul, re_star_mul, re_star_mul]
  have h := inner_arccos_triangle (norm_eq_one_of_normSq ha) (norm_eq_one_of_normSq hb)
    (norm_eq_one_of_normSq hc)
  linarith

/-! Minima over candidate lists. -/

theorem listMin_le_default (d : ℝ) (l : List ℝ) : listMin d l ≤ d := by
  induction l with
  | nil => exact le_refl d
  | cons x xs ih => exact le_trans (min_le_right _ _) ih

theorem listMin_le_of_mem {d a : ℝ} {l : List ℝ} (h : a ∈ l) : listMin d l ≤ a := by
  induction l with
  | nil => cases h
  | cons x xs ih =>
    rcases List.mem_cons.1 h with h | h
    · subst h; exact min_le_left _ _
    · exact le_trans (min_le_right _ _) (ih h)

theorem le_listMin {c d : ℝ} {l : List ℝ} (hd : c ≤ d) (h : ∀ a ∈ l, c ≤ a) :
    c ≤ listMin d l := by
  induction l with
  | nil => exact hd
  | cons x xs ih =>
    exact le_min (h x (List.mem_cons_self x xs)) (ih fun a ha => h a (List.mem_cons_of_mem x ha))

theorem listMin_eq_default_or_mem (d : ℝ) (l : List ℝ) :
    listMin d l = d ∨ listMin d l ∈ l := by
  induction l with
  | nil => exact Or.inl rfl
  | cons x xs ih =>
    rcases le_total x (listMin d xs) with h | h
    · right
      rw [listMin, min_eq_left h]
      exact List.mem_cons_self x xs
    · rw [listMin, min_eq_right h]
      rcases ih with h1 | h1
      · exact Or.inl h1
      · exact Or.inr (List.mem_cons_of_mem x h1)

theorem mem_candidates {G1 G2 : List (Quaternion ℝ)} {m c : Quaternion ℝ} :
    c ∈ candidates G1 G2 m ↔ ∃ g ∈ G1, ∃ h ∈ G2, c = g * m * h := by
  simp only [candidates, List.mem_flatMap, List.mem_map]
  constructor
  · rintro ⟨g, hg, h, hh, rfl⟩
    exact ⟨g, hg, h, hh, rfl⟩
  · rintro ⟨g, hg, h, hh, rfl⟩
    exact ⟨g, hg, h, hh, rfl⟩

theorem self_mem_candidates {G1 G2 : List (Quaternion ℝ)} {m : Quaternion ℝ}
    (h1 : (1 : Quaternion ℝ) ∈ G1) (h2 : (1 : Quaternion ℝ) ∈ G2) :
    m ∈ candidates G1 G2 m :=
  mem_candidates.2 ⟨1, h1, 1, h2, by rw [one_mul, mul_one]⟩

/-! Properties of the symmetry-aware quotient distance. -/

theorem symDist_nonneg (G1 G2 : List (Quaternion ℝ)) (a b : Quaternion ℝ) :
    0 ≤ symDist G1 G2 a b := by
  apply le_listMin (angle_nonneg _)
  intro x hx
  rcases List.mem_map.1 hx with ⟨c, _, rfl⟩
  exact angle_nonneg _

theorem symDist_le_qdist (G1 G2 : List (Quaternion ℝ)) (a b : Quaternion ℝ) :
    symDist G1 G2 a b ≤ qdist a b :=
  listMin_le_default _ _

theorem symDist_le_candidate {G1 G2 : List (Quaternion ℝ)} {a b c : Quaternion ℝ}
    (hc : c ∈ candidates G1 G2 b) : symDist G1 G2 a b ≤ qdist a c :=
  listMin_le_of_mem (List.mem_map_of_mem (qdist a) hc)

theorem symDist_attain {G1 G2 : List (Quaternion ℝ)} {a b : Quaternion ℝ}
    (h1 : (1 : Quaternion ℝ) ∈ G1) (h2 : (1 : Quaternion ℝ) ∈ G2) :
    ∃ g ∈ G1, ∃ h ∈ G2, symDist G1 G2 a b = qdist a (g * b * h) := by
  rcases listMin_eq_default_or_mem (qdist a b) ((candidates G1 G2 b).map (qdist a)) with h | h
  · exact ⟨1, h1, 1, h2, by rw [one_mul, mul_one]; exact h⟩
  · rcases List.mem_map.1 h with ⟨c, hc, hval⟩
    rcases mem_candidates.1 hc with ⟨g, hg, k, hk, rfl⟩
    exact ⟨g, hg, k, hk, hval.symm⟩

theorem symDist_self {G1 G2 : List (Quaternion ℝ)} {a : Quaternion ℝ} (ha : normSq a = 1) :
    symDist G1 G2 a a = 0 :=
  le_antisymm (le_trans (symDist_le_qdist G1 G2 a a) (le_of_eq (qdist_self ha)))
    (symDist_nonneg G1 G2 a a)

theorem qdist_candidate_swap (g h a b : Quaternion ℝ) :
    qdist b (g * a * h) = qdist a (star g * b * star h) := by
  unfold qdist
  rw [← angle_star (star b * (g * a * h))]
  have e1 : star (star b * (g * a * h)) = star h * (star a * star g * b) := by
    simp only [star_mul, star_star]
    noncomm_ring
  rw [e1, angle_mul_comm]
  congr 1
  noncomm_ring

theorem symDist_le_symm {G1 G2 : List (Quaternion ℝ)} (hG1 : IsSymGroup G1)
    (hG2 : IsSymGroup G2) (a b : Quaternion ℝ) :
    symDist G1 G2 a b ≤ symDist G1 G2 b a := by
  rcases symDist_attain (a := b) (b := a) hG1.one_mem hG2.one_mem with ⟨g, hg, h, hh, heq⟩
  rw [heq, qdist_candidate_swap]
  exact symDist_le_candidate
    (mem_candidates.2 ⟨star g, hG1.star_mem g hg, star h, hG2.star_mem h hh, rfl⟩)

theorem symDist_comm {G1 G2 : List (Quaternion ℝ)} (hG1 : IsSymGroup G1)
    (hG2 : IsSymGroup G2) (a b : Quaternion ℝ) :
    symDist G1 G2 a b = symDist G1 G2 b a :=
  le_antisymm (symDist_le_symm hG1 hG2 a b) (symDist_le_symm hG1 hG2 b a)

theorem symDist_triangle {G1 G2 : List (Quaternion ℝ)} (hG1 : IsSymGroup G1)
    (hG2 : IsSymGroup G2) {a b c : Quaternion ℝ}
    (ha : normSq a = 1) (hb : normSq b = 1) (hc : normSq c = 1) :
    symDist G1 G2 a c ≤ symDist G1 G2 a b + symDist G1 G2 b c := by
  rcases symDist_attain (a := a) (b := b) hG1.one_mem hG2.one_mem with ⟨g1, hg1, h1, hh1, e1⟩
  rcases symDist_attain (a := b) (b := c) hG1.one_mem hG2.one_mem with ⟨g2, hg2, h2, hh2, e2⟩
  have hcand : (g1 * g2) * c * (h2 * h1) ∈ candidates G1 G2 c :=
    mem_candidates.2 ⟨g1 * g2, hG1.mul_mem g1 hg1 g2 hg2, h2 * h1, hG2.mul_mem h2 hh2 h1 hh1, rfl⟩
  have step1 : symDist G1 G2 a c ≤ qdist a ((g1 * g2) * c * (h2 * h1)) :=
    symDist_le_candidate hcand
  have hassoc : (g1 * g2) * c * (h2 * h1) = g1 * (g2 * c * h2) * h1 := by noncomm_ring
  have hub : normSq (g1 * b * h1) = 1 :=
    normSq_unit_mul (normSq_unit_mul (hG1.unit g1 hg1) hb) (hG2.unit h1 hh1)
  have huc : normSq (g1 * (g2 * c * h2) * h1) = 1 :=
    normSq_unit_mul
      (normSq_unit_mul (hG1.unit g1 hg1)
        (normSq_unit_mul (normSq_unit_mul (hG1.unit g2 hg2) hc) (hG2.unit h2 hh2)))
      (hG2.unit h1 hh1)
  have step2 : qdist a (g1 * (g2 * c * h2) * h1)
      ≤ qdist a (g1 * b * h1) + qdist (g1 * b * h1) (g1 * (g2 * c * h2) * h1) :=
    qdist_triangle ha huc hub
  have step3 : qdist (g1 * b * h1) (g1 * (g2 * c * h2) * h1) = qdist b (g2 * c * h2) :=
    qdist_bi (hG1.unit g1 hg1) (hG2.unit h1 hh1) b (g2 * c * h2)
  rw [hassoc] at step1
  rw [step3] at step2
  rw [e1, e2]
  exact le_trans step1 step2

/-! First-minimizer selection and fundamental-zone reduction. -/

theorem pickMin_mem (b : Quaternion ℝ) (l : List (Quaternion ℝ)) : pickMin b l ∈ b :: l := by
  induction l generalizing b with
  | nil => exact List.mem_cons_self b []
  | cons c cs ih =>
    simp only [pickMin]
    split
    · exact List.mem_cons_of_mem b (ih c)
    · rcases List.mem_cons.1 (ih b) with h | h
      · rw [h]; exact List.mem_cons_self b (c :: cs)
      · exact List.mem_cons_of_mem b (List.mem_cons_of_mem c h)

theorem pickMin_le (b : Quaternion ℝ) (l : List (Quaternion ℝ)) :
    ∀ x ∈ b :: l, angle (pickMin b l) ≤ angle x := by
  induction l generalizing b with
  | nil =>
    intro x hx
    rcases List.mem_cons.1 hx with h | h
    · rw [h]; exact le_refl _
    · cases h
  | cons c cs ih =>
    intro x hx
    simp only [pickMin]
    by_cases hcb : angle c < angle b
    · rw [if_pos hcb]
      rcases List.mem_cons.1 hx with h | h
      · rw [h]
        exact le_trans (ih c c (List.mem_cons_self c cs)) hcb.le
      · exact ih c x h
    · rw [if_neg hcb]
      rcases List.mem_cons.1 hx with h | h
      · rw [h]
        exact ih b b (List.mem_cons_self b cs)
      · rcases List.mem_cons.1 h with h2 | h2
        · rw [h2]
          exact le_trans (ih b b (List.mem_cons_self b cs)) (not_lt.1 hcb)
        · exact ih b x (List.mem_cons_of_mem b h2)

theorem pickMin_eq_self {b : Quaternion ℝ} {l : List (Quaternion ℝ)}
    (h : ∀ x ∈ l, ¬ angle x < angle b) : pickMin b l = b := by
  induction l with
  | nil => rfl
  | cons c cs ih =>
    simp only [pickMin]
    rw [if_neg (h c (List.mem_cons_self c cs))]
    exact ih fun x hx => h x (List.mem_cons_of_mem c hx)

theorem one_mem_of_head {G : List (Quaternion ℝ)} (h : G.head? = some 1) :
    (1 : Quaternion ℝ) ∈ G := by
  cases G with
  | nil => simp at h
  | cons a t =>
    have ha : a = 1 := by simpa using h
    subst ha
    exact List.mem_cons_self _ _

theorem candidates_cons (g1 : Quaternion ℝ) (t1 : List (Quaternion ℝ)) (g2 : Quaternion ℝ)
    (t2 : List (Quaternion ℝ)) (m : Quaternion ℝ) :
    candidates (g1 :: t1) (g2 :: t2) m
      = (g1 * m * g2) :: (t2.map (fun h => g1 * m * h)
          ++ t1.flatMap fun g => (g2 :: t2).map fun h => g * m * h) := by
  simp only [candidates, List.flatMap_cons, List.map_cons, List.cons_append]

theorem reduce_eq_pickMin {G1 G2 : List (Quaternion ℝ)} {m c : Quaternion ℝ}
    {cs : List (Quaternion ℝ)} (h : candidates G1 G2 m = c :: cs) :
    map_into_symmetry_reduced_zone G1 G2 m = pickMin c cs := by
  unfold map_into_symmetry_reduced_zone
  rw [h]

theorem reduce_mem {G1 G2 : List (Quaternion ℝ)} {m : Quaternion ℝ}
    (h1 : (1 : Quaternion ℝ) ∈ G1) (h2 : (1 : Quaternion ℝ) ∈ G2) :
    map_into_symmetry_reduced_zone G1 G2 m ∈ candidates G1 G2 m := by
  unfold map_into_symmetry_reduced_zone
  split
  · exact self_mem_candidates h1 h2
  · next c cs heq =>
    rw [heq]
    exact pickMin_mem c cs

theorem reduce_min {G1 G2 : List (Quaternion ℝ)} {m : Quaternion ℝ} :
    ∀ c ∈ candidates G1 G2 m, angle (map_into_symmetry_reduced_zone G1 G2 m) ≤ angle c := by
  intro c hc
  unfold map_into_symmetry_reduced_zone
  split
  · next heq => rw [heq] at hc; cases hc
  · next c0 cs heq =>
    rw [heq] at hc
    exact pickMin_le c0 cs c hc

theorem reduce_idempotent {G1 G2 : List (Quaternion ℝ)} (hG1 : IsSymGroup G1)
    (hG2 : IsSymGroup G2) (h1 : G1.head? = some 1) (h2 : G2.head? = some 1)
    (m : Quaternion ℝ) :
    map_into_symmetry_reduced_zone G1 G2 (map_into_symmetry_reduced_zone G1 G2 m)
      = map_into_symmetry_reduced_zone G1 G2 m := by
  have hrmem : map_into_symmetry_reduced_zone G1 G2 m ∈ candidates G1 G2 m :=
    reduce_mem (one_mem_of_head h1) (one_mem_of_head h2)
  have hkey : ∀ c ∈ candidates G1 G2 (map_into_symmetry_reduced_zone G1 G2 m),
      ¬ angle c < angle (map_into_symmetry_reduced_zone G1 G2 m) := by
    intro c hc
    rcases mem_candidates.1 hc with ⟨g, hg, h, hh, rfl⟩
    rcases mem_candidates.1 hrmem with ⟨g0, hg0, h0, hh0, hr0⟩
    have hmem : g * map_into_symmetry_reduced_zone G1 G2 m * h ∈ candidates G1 G2 m := by
      rw [hr0]
      exact mem_candidates.2
        ⟨g * g0, hG1.mul_mem g hg g0 hg0, h0 * h, hG2.mul_mem h0 hh0 h hh, by noncomm_ring⟩
    exact not_lt.2 (reduce_min _ hmem)
  cases G1 with
  | nil => simp at h1
  | cons g1 t1 =>
    cases G2 with
    | nil => simp at h2
    | cons g2 t2 =>
      have hg1 : g1 = 1 := by simpa using h1
      have hg2 : g2 = 1 := by simpa using h2
      subst hg1
      subst hg2
      have hstr := candidates_cons 1 t1 1 t2 (map_into_symmetry_reduced_zone (1 :: t1) (1 :: t2) m)
      rw [one_mul, mul_one] at hstr
      rw [reduce_eq_pickMin hstr]
      apply pickMin_eq_self
      intro x hx
      apply hkey
      rw [hstr]
      exact List.mem_cons_of_mem _ hx

/-! The D6 registry entry is a symmetry group of unit quaternions. -/

theorem zr_add (a b : Zsqrtd 3) : zr (a + b) = zr a + zr b := by
  unfold zr
  rw [Zsqrtd.add_re, Zsqrtd.add_im]
  push_cast
  ring

theorem zr_sub (a b : Zsqrtd 3) : zr (a - b) = zr a - zr b := by
  unfold zr
  rw [Zsqrtd.sub_re, Zsqrtd.sub_im]
  push_cast
  ring

theorem zr_neg (a : Zsqrtd 3) : zr (-a) = -zr a := by
  unfold zr
  rw [Zsqrtd.neg_re, Zsqrtd.neg_im]
  push_cast
  ring

theorem zr_mul (a b : Zsqrtd 3) : zr (a * b) = zr a * zr b := by
  unfold zr
  rw [Zsqrtd.mul_re, Zsqrtd.mul_im]
  push_cast
  have hs : Real.sqrt 3 * Real.sqrt 3 = 3 := Real.mul_self_sqrt (by norm_num)
  linear_combination (-(a.im : ℝ) * (b.im : ℝ)) * hs

theorem toQuat_mul (p q : QZ3) : (p.mul q).toQuat = (2 : ℝ) • (p.toQuat * q.toQuat) := by
  unfold QZ3.toQuat QZ3.mul
  ext <;>
    simp only [Quaternion.mul_re, Quaternion.mul_imI, Quaternion.mul_imJ, Quaternion.mul_imK,
      Quaternion.smul_re, Quaternion.smul_imI, Quaternion.smul_imJ,
      Quaternion.smul_imK, smul_eq_mul, zr_add, zr_sub, zr_mul] <;>
    ring

theorem toQuat_conj (p : QZ3) : p.conj.toQuat = star p.toQuat := by
  unfold QZ3.toQuat QZ3.conj
  ext <;>
    simp only [Quaternion.star_re, Quaternion.star_imI, Quaternion.star_imJ,
      Quaternion.star_imK, zr_neg] <;>
    ring

theorem toQuat_double (p : QZ3) : p.double.toQuat = (2 : ℝ) • p.toQuat := by
  have h2 : zr ⟨2, 0⟩ = 2 := by unfold zr; norm_num
  unfold QZ3.toQuat QZ3.double
  ext <;>
    simp only [Quaternion.smul_re, Quaternion.smul_imI,
      Quaternion.smul_imJ, Quaternion.smul_imK, smul_eq_mul, zr_mul, h2] <;>
    ring

theorem normSq_toQuat (p : QZ3) : normSq p.toQuat = zr p.nrm / 4 := by
  rw [Quaternion.normSq_def']
  unfold QZ3.toQuat QZ3.nrm
  simp only [zr_add, zr_mul]
  ring

theorem D6d_closure : ∀ p ∈ D6d, ∀ q ∈ D6d, p.mul q ∈ D6d.map QZ3.double := by decide

theorem D6d_conj_closure : ∀ p ∈ D6d, p.conj ∈ D6d := by decide

theorem D6d_nrm : ∀ p ∈ D6d, p.nrm = ⟨4, 0⟩ := by decide

theorem toQuat_head_one : (zrotD ⟨2, 0⟩ ⟨0, 0⟩).toQuat = 1 := by
  unfold QZ3.toQuat zrotD zr
  ext <;> norm_num

theorem isSymGroup_D6 : IsSymGroup D6 := by
  constructor
  · rw [← toQuat_head_one]
    exact List.mem_map_of_mem _ (by decide)
  · intro g hg
    rcases List.mem_map.1 hg with ⟨p, hp, rfl⟩
    rw [normSq_toQuat, D6d_nrm p hp]
    show zr ⟨4, 0⟩ / 4 = 1
    unfold zr
    norm_num
  · intro g hg h hh
    rcases List.mem_map.1 hg with ⟨p, hp, rfl⟩
    rcases List.mem_map.1 hh with ⟨q, hq, rfl⟩
    rcases List.mem_map.1 (D6d_closure p hp q hq) with ⟨r, hr, hr2⟩
    have hpq : p.toQuat * q.toQuat = r.toQuat := by
      have h1 := toQuat_mul p q
      rw [← hr2, toQuat_double] at h1
      exact (smul_right_injective (Quaternion ℝ) (by norm_num : (2 : ℝ) ≠ 0) h1).symm
    rw [hpq]
    exact List.mem_map_of_mem _ hr
  · intro g hg
    rcases List.mem_map.1 hg with ⟨p, hp, rfl⟩
    rw [← toQuat_conj]
    exact List.mem_map_of_mem _ (D6d_conj_closure p hp)

theorem D6_head : D6.head? = some 1 := by
  unfold D6 D6d
  rw [List.map_cons, List.head?_cons, toQuat_head_one]

/-! Helper facts for concrete instantiations. -/

theorem isSymGroup_trivial : IsSymGroup [1] := by
  constructor
  · exact List.mem_singleton_self 1
  · intro g hg
    rw [List.mem_singleton] at hg
    rw [hg]
    exact map_one normSq
  · intro g hg h hh
    rw [List.mem_singleton] at hg hh
    rw [hg, hh, one_mul]
    exact List.mem_singleton_self 1
  · intro g hg
    rw [List.mem_singleton] at hg
    rw [hg, star_one]
    exact List.mem_singleton_self 1

theorem normSq_quat_i : normSq (⟨0, 1, 0, 0⟩ : Quaternion ℝ) = 1 := by
  rw [Quaternion.normSq_def']
  norm_num

theorem normSq_sigma7a : normSq sigma7a = 1 := by
  rw [sigma7a, Quaternion.normSq_def']
  norm_num

/-- C1: for every finite set of (mis)orientations with any supported
symmetry-group pair, the distance matrix `D = get_distance_matrix(ms)` is N×N
(it is indexed by `Fin N × Fin N` by construction) and satisfies, for all
indices, `D[i,i] = 0`, `D[i,j] = D[j,i]` and the triangle inequality
`D[i,k] ≤ D[i,j] + D[j,k]`, where `D[i,j]` is the minimum over all symmetry
equivalents of the rotation angle of `inverse(m_i)·m_j`. -/
theorem C1_distance_matrix_is_metric (G1 G2 : List (Quaternion ℝ))
    (hG1 : IsSymGroup G1) (hG2 : IsSymGroup G2) (ms : List (Quaternion ℝ))
    (hms : ∀ m ∈ ms, normSq m = 1) :
    (∀ i, get_distance_matrix G1 G2 ms i i = 0) ∧
    (∀ i j, get_distance_matrix G1 G2 ms i j = get_distance_matrix G1 G2 ms j i) ∧
    (∀ i j k, get_distance_matrix G1 G2 ms i k
      ≤ get_distance_matrix G1 G2 ms i j + get_distance_matrix G1 G2 ms j k) := by
  refine ⟨?_, ?_, ?_⟩
  · intro i
    exact symDist_self (hms _ (ms.get_mem i i.isLt))
  · intro i j
    exact symDist_comm hG1 hG2 _ _
  · intro i j k
    exact symDist_triangle hG1 hG2 (hms _ (ms.get_mem i i.isLt)) (hms _ (ms.get_mem j j.isLt))
      (hms _ (ms.get_mem k k.isLt))

/-- Witness for C1: the hexagonal symmetry pair (D6, D6) and the concrete
two-element set of unit misorientations `[1, Σ7a]`. -/
theorem C1_distance_matrix_is_metric_witness :
    (∀ i, get_distance_matrix D6 D6 [1, sigma7a] i i = 0) ∧
    (∀ i j, get_distance_matrix D6 D6 [1, sigma7a] i j
      = get_distance_matrix D6 D6 [1, sigma7a] j i) ∧
    (∀ i j k, get_distance_matrix D6 D6 [1, sigma7a] i k
      ≤ get_distance_matrix D6 D6 [1, sigma7a] i j
        + get_distance_matrix D6 D6 [1, sigma7a] j k) :=
  C1_distance_matrix_is_metric D6 D6 isSymGroup_D6 isSymGroup_D6
    [1, sigma7a] (by
      intro m hm
      rcases List.mem_cons.1 hm with h | h
      · rw [h]; exact map_one normSq
      · rw [List.mem_singleton] at h
        rw [h]; exact normSq_sigma7a)

/-- C2: for every (mis)orientation whose symmetry is set,
`map_into_symmetry_reduced_zone` returns a symmetry equivalent of minimal
rotation angle, and it is idempotent: reducing an already-reduced
representative yields the same representative (with the documented
first-candidate tie-break, the identity elements heading the symmetry
lists). -/
theorem C2_reduction_minimal_idempotent (G1 G2 : List (Quaternion ℝ))
    (hG1 : IsSymGroup G1) (hG2 : IsSymGroup G2)
    (h1 : G1.head? = some 1) (h2 : G2.head? = some 1) (m : Quaternion ℝ) :
    map_into_symmetry_reduced_zone G1 G2 m ∈ candidates G1 G2 m ∧
    (∀ c ∈ candidates G1 G2 m, angle (map_into_symmetry_reduced_zone G1 G2 m) ≤ angle c) ∧
    map_into_symmetry_reduced_zone G1 G2 (map_into_symmetry_reduced_zone G1 G2 m)
      = map_into_symmetry_reduced_zone G1 G2 m :=
  ⟨reduce_mem (one_mem_of_head h1) (one_mem_of_head h2), reduce_min,
    reduce_idempotent hG1 hG2 h1 h2 m⟩

/-- Witness for C2: the hexagonal symmetry pair (D6, D6) and the concrete Σ7a
misorientation. -/
theorem C2_reduction_minimal_idempotent_witness :
    map_into_symmetry_reduced_zone D6 D6 sigma7a ∈ candidates D6 D6 sigma7a ∧
    (∀ c ∈ candidates D6 D6 sigma7a,
      angle (map_into_symmetry_reduced_zone D6 D6 sigma7a) ≤ angle c) ∧
    map_into_symmetry_reduced_zone D6 D6 (map_into_symmetry_reduced_zone D6 D6 sigma7a)
      = map_into_symmetry_reduced_zone D6 D6 sigma7a :=
  C2_reduction_minimal_idempotent D6 D6 isSymGroup_D6 isSymGroup_D6 D6_head D6_head sigma7a

/-- C6: for every unit quaternion `q`, `distance(q, -q) = 0`; the angle
`2·arccos(clamp(|w|, 0, 1))` always lies in `[0, π]` and is invariant under
negating the quaternion, so the two double-cover representatives of the same
rotation are at zero distance. -/
theorem C6_double_cover_distance (q : Quaternion ℝ) (hq : normSq q = 1) :
    qdist q (-q) = 0 ∧ 0 ≤ angle q ∧ angle q ≤ π ∧ angle (-q) = angle q := by
  refine ⟨?_, angle_nonneg q, angle_le_pi q, angle_neg q⟩
  unfold qdist
  rw [mul_neg, Quaternion.star_mul_self, hq, angle_neg]
  norm_num [angle_one]

/-- Witness for C6 at the concrete unit quaternion `i`. -/
theorem C6_double_cover_distance_witness :
    qdist ⟨0, 1, 0, 0⟩ (-⟨0, 1, 0, 0⟩ : Quaternion ℝ) = 0 ∧
    0 ≤ angle (⟨0, 1, 0, 0⟩ : Quaternion ℝ) ∧
    angle (⟨0, 1, 0, 0⟩ : Quaternion ℝ) ≤ π ∧
    angle (-⟨0, 1, 0, 0⟩ : Quaternion ℝ) = angle (⟨0, 1, 0, 0⟩ : Quaternion ℝ) :=
  C6_double_cover_distance ⟨0, 1, 0, 0⟩ normSq_quat_i

/-! Chunked evaluation is unobservable in the output. -/

theorem chunksSucc_flatten (k : ℕ) (l : List α) : (chunksSucc k l).flatten = l := by
  generalize hn : l.length = n
  induction n using Nat.strong_induction_on generalizing l with
  | _ n ih =>
    cases l with
    | nil => simp [chunksSucc]
    | cons x xs =>
      rw [chunksSucc, List.flatten_cons]
      have hlt : (xs.drop k).length < n := by
        subst hn
        simp [List.length_drop]
        omega
      rw [ih _ hlt _ rfl, List.cons_append, List.take_append_drop]

theorem toBlocks_flatten (c : ℕ) (l : List α) : (toBlocks c l).flatten = l :=
  chunksSucc_flatten _ l

/-- C4: for every input and every chunk size, the chunked/lazy evaluation of
the large outer-product computations — the rotation–vector outer product and
the chunked distance-matrix computation — produces exactly the same values in
exactly the same order as the non-chunked computation; chunking is never
observable in the output. -/
theorem C4_chunking_unobservable (chunk_size : ℕ) (rs vs G1 G2 ms : List (Quaternion ℝ)) :
    outerApplyChunked chunk_size rs vs = outerApply rs vs ∧
    distRowsChunked chunk_size G1 G2 ms = distRows G1 G2 ms := by
  constructor
  · unfold outerApplyChunked outerApply
    rw [← List.map_flatten, toBlocks_flatten]
  · unfold distRowsChunked distRows
    rw [← List.map_flatten, toBlocks_flatten]

/-! Multiplicity of symmetrised directions. -/

theorem pointGroup_cancel {G : List (Matrix (Fin 3) (Fin 3) ℚ)} (hG : IsPointGroupM G)
    {v : Fin 3 → ℚ} (hstab : ∀ g ∈ G, g.mulVec v = v → g = 1) :
    ∀ g1 ∈ G, ∀ g2 ∈ G, g1.mulVec v = g2.mulVec v → g1 = g2 := by
  intro g1 hg1 g2 hg2 heq
  rcases hG.inv_mem g2 hg2 with ⟨g2i, hg2i, hleft, hright⟩
  have hmem : g2i * g1 ∈ G := hG.mul_mem g2i hg2i g1 hg1
  have hfix : (g2i * g1).mulVec v = v := by
    rw [← Matrix.mulVec_mulVec, heq, Matrix.mulVec_mulVec, hleft, Matrix.one_mulVec]
  have hone : g2i * g1 = 1 := hstab _ hmem hfix
  calc g1 = 1 * g1 := (one_mul g1).symm
    _ = (g2 * g2i) * g1 := by rw [hright]
    _ = g2 * (g2i * g1) := by rw [mul_assoc]
    _ = g2 * 1 := by rw [hone]
    _ = g2 := mul_one g2

theorem symmetrise_length_le (G : List (Matrix (Fin 3) (Fin 3) ℚ)) (v : Fin 3 → ℚ) :
    (symmetrise G v).length ≤ G.length := by
  calc (symmetrise G v).length ≤ (G.map fun g => g.mulVec v).length :=
        (List.dedup_sublist _).length_le
    _ = G.length := List.length_map _ _

/-- C5: for every point group `G` of order `|G|` and every direction `v` whose
stabilizer in `G` is trivial, `symmetrise(v, unique=True)` returns exactly
`|G|` distinct directions; for a direction lying on a symmetry axis, with a
nontrivial stabilizer, it returns strictly fewer. -/
theorem C5_symmetrise_multiplicity (G : List (Matrix (Fin 3) (Fin 3) ℚ))
    (hG : IsPointGroupM G) (v : Fin 3 → ℚ) :
    ((∀ g ∈ G, g.mulVec v = v → g = 1) → (symmetrise G v).length = G.length) ∧
    ((∃ s ∈ G, s ≠ 1 ∧ s.mulVec v = v) → (symmetrise G v).length < G.length) := by
  constructor
  · intro hstab
    have hnodup : (G.map fun g => g.mulVec v).Nodup :=
      hG.nodup.map_on (pointGroup_cancel hG hstab)
    unfold symmetrise
    rw [List.dedup_eq_self.2 hnodup, List.length_map]
  · intro ⟨s, hs, hs1, hfix⟩
    rcases lt_or_eq_of_le (symmetrise_length_le G v) with h | h
    · exact h
    · exfalso
      have hlen : ((G.map fun g => g.mulVec v).dedup).length
          = (G.map fun g => g.mulVec v).length := by
        have := h
        unfold symmetrise at this
        rw [this, List.length_map]
      have heq : (G.map fun g => g.mulVec v).dedup = G.map fun g => g.mulVec v :=
        (List.dedup_sublist _).eq_of_length hlen
      have hnodup : (G.map fun g => g.mulVec v).Nodup := List.dedup_eq_self.1 heq
      have hinj := List.inj_on_of_nodup_map hnodup
      have hcontra : (1 : Matrix (Fin 3) (Fin 3) ℚ) = s := by
        apply hinj hG.one_mem hs
        show (1 : Matrix (Fin 3) (Fin 3) ℚ).mulVec v = s.mulVec v
        rw [Matrix.one_mulVec, hfix]
      exact hs1 hcontra.symm

/-- Witness for C5: the two-element point group generated by the half-turn
about the z-axis, instantiated at the on-axis direction `(0, 0, 1)` (whose
stabilizer is the whole group, so strictly fewer images are returned). -/
theorem C5_symmetrise_multiplicity_witness :
    ((∀ g ∈ [1, !![(-1 : ℚ), 0, 0; 0, -1, 0; 0, 0, 1]],
        g.mulVec ![0, 0, 1] = ![0, 0, 1] → g = 1) →
      (symmetrise [1, !![(-1 : ℚ), 0, 0; 0, -1, 0; 0, 0, 1]] ![0, 0, 1]).length
        = [1, !![(-1 : ℚ), 0, 0; 0, -1, 0; 0, 0, 1]].length) ∧
    ((∃ s ∈ [1, !![(-1 : ℚ), 0, 0; 0, -1, 0; 0, 0, 1]],
        s ≠ 1 ∧ s.mulVec ![0, 0, 1] = ![0, 0, 1]) →
      (symmetrise [1, !![(-1 : ℚ), 0, 0; 0, -1, 0; 0, 0, 1]] ![0, 0, 1]).length
        < [1, !![(-1 : ℚ), 0, 0; 0, -1, 0; 0, 0, 1]].length) := by
  have hne : (1 : Matrix (Fin 3) (Fin 3) ℚ) ≠ !![(-1 : ℚ), 0, 0; 0, -1, 0; 0, 0, 1] := by
    intro h
    have h2 := congrFun (congrFun h 0) 0
    rw [Matrix.one_fin_three] at h2
    simp at h2
    norm_num at h2
  have hsq : !![(-1 : ℚ), 0, 0; 0, -1, 0; 0, 0, 1]
      * !![(-1 : ℚ), 0, 0; 0, -1, 0; 0, 0, 1] = 1 := by
    rw [Matrix.mul_fin_three, Matrix.one_fin_three]
    norm_num
  refine C5_symmetrise_multiplicity _ ?_ _
  constructor
  · simp only [List.nodup_cons, List.mem_singleton, List.nodup_nil, and_true,
      List.not_mem_nil, not_false_iff]
    exact hne
  · exact List.mem_cons_self _ _
  · intro g hg h hh
    rcases List.mem_cons.1 hg with rfl | hg <;> rcases List.mem_cons.1 hh with rfl | hh
    · rw [one_mul]; exact List.mem_cons_self _ _
    · rw [List.mem_singleton] at hh
      rw [hh, one_mul]
      exact List.mem_cons_of_mem _ (List.mem_singleton_self _)
    · rw [List.mem_singleton] at hg
      rw [hg, mul_one]
      exact List.mem_cons_of_mem _ (List.mem_singleton_self _)
    · rw [List.mem_singleton] at hg hh
      rw [hg, hh, hsq]
      exact List.mem_cons_self _ _
  · intro g hg
    rcases List.mem_cons.1 hg with rfl | hg
    · exact ⟨1, List.mem_cons_self _ _, by rw [one_mul], by rw [one_mul]⟩
    · rw [List.mem_singleton] at hg
      subst hg
      exact ⟨!![(-1 : ℚ), 0, 0; 0, -1, 0; 0, 0, 1],
        List.mem_cons_of_mem _ (List.mem_singleton_self _), hsq, hsq⟩

/-! Fundamental sectors of the 32 point groups. -/

/-- Counterexample to C3 as stated: the point group 4 (C4) is one of the 21
point groups that are not Laue classes, yet reading its fundamental sector
does not fail with a SymmetryError — it succeeds, returning the sector of its
Laue class 4/m, exactly as the s2-sampling notebook (which filters a mesh by
the sector of every one of the 32 point groups) and the inverse-pole-figures
notebook (which documents the Laue fallback) show. -/
theorem C3_fundamental_sector_counterexample :
    isLaue PointGroup.C4 = false
      ∧ fundamental_sector PointGroup.C4 = Except.ok LaueClass.C4h :=
  ⟨rfl, rfl⟩

/-- C3 (amended): only the 11 Laue classes have fundamental sectors of their
own; for each of the 21 remaining point groups the sector read does not raise
a SymmetryError — it succeeds and yields the sector of the group's Laue class
(its centrosymmetric closure). -/
theorem C3_fundamental_sector_laue_fallback :
    ∀ g : PointGroup, fundamental_sector g = Except.ok (laue g) :=
  fun _ => rfl

/-! Miller index conventions. -/

theorem hkl_fromHkl (lat : LatticeQ) (h k l : ℚ) :
    (Miller.fromHkl lat h k l).hkl = ![h, k, l] := by
  show lat.A.transpose.mulVec (lat.Ainv.transpose.mulVec ![h, k, l]) = ![h, k, l]
  rw [Matrix.mulVec_mulVec, ← Matrix.transpose_mul, lat.left_inv, Matrix.transpose_one,
    Matrix.one_mulVec]

theorem uvw_fromUvw (lat : LatticeQ) (u v w : ℚ) :
    (Miller.fromUvw lat u v w).uvw = ![u, v, w] := by
  show lat.Ainv.mulVec (lat.A.mulVec ![u, v, w]) = ![u, v, w]
  rw [Matrix.mulVec_mulVec, lat.left_inv, Matrix.one_mulVec]

/-- C9: reassigning the coordinate format of a Miller instance (for example
from hkil to UVTW) leaves the underlying cartesian vector data unchanged for
every instance: only the index convention used for display and index access
changes (the accessors being functions of the stored data and lattice alone),
never the stored vector. -/
theorem C9_coordinate_format_preserves_data (m : Miller) (f : CoordinateFormat) :
    (m.setCoordinateFormat f).data = m.data ∧
    (m.setCoordinateFormat f).coordinate_format = f ∧
    (m.setCoordinateFormat f).hkil = m.hkil ∧
    (m.setCoordinateFormat f).UVTW = m.UVTW :=
  ⟨rfl, rfl, rfl, rfl⟩

/-- C10: for every Miller instance constructed from or converted to four-index
Miller–Bravais (hkil) or Weber (UVTW) indices, the first three indices sum to
zero: the accessors always satisfy `h + k + i = 0` (with `i = -(h + k)`) and
`U + V + T = 0`, and the validated constructors accept exactly the index
quadruples satisfying the convention, reproducing them on read-back. -/
theorem C10_four_index_conventions_zero_sum (m : Miller) (lat : LatticeQ)
    (h k i l U V T W : ℚ) :
    m.hkil.1 + m.hkil.2.1 + m.hkil.2.2.1 = 0 ∧
    m.UVTW.1 + m.UVTW.2.1 + m.UVTW.2.2.1 = 0 ∧
    (∀ m', Miller.fromHkil lat h k i l = some m' →
      h + k + i = 0 ∧ m'.hkil = (h, k, i, l)) ∧
    (∀ m', Miller.fromUVTW lat U V T W = some m' →
      U + V + T = 0 ∧ m'.UVTW = (U, V, T, W)) := by
  refine ⟨?_, ?_, ?_, ?_⟩
  · show m.hkl 0 + m.hkl 1 + -(m.hkl 0 + m.hkl 1) = 0
    ring
  · show (2 * m.uvw 0 - m.uvw 1) / 3 + (2 * m.uvw 1 - m.uvw 0) / 3
      + -((m.uvw 0 + m.uvw 1) / 3) = 0
    ring
  · intro m' hm'
    unfold Miller.fromHkil at hm'
    split at hm'
    · next hvalid =>
      refine ⟨hvalid, ?_⟩
      have hm'' := Option.some.inj hm'
      subst hm''
      have e : ({ Miller.fromHkl lat h k l with
          coordinate_format := CoordinateFormat.hkil } : Miller).hkl = ![h, k, l] :=
        hkl_fromHkl lat h k l
      unfold Miller.hkil
      rw [e]
      simp only [Matrix.cons_val_zero, Matrix.cons_val_one, Matrix.head_cons,
        Matrix.cons_val_two, Matrix.tail_cons]
      have hi : -(h + k) = i := by linarith
      rw [hi]
    · cases hm'
  · intro m' hm'
    unfold Miller.fromUVTW at hm'
    split at hm'
    · next hvalid =>
      refine ⟨hvalid, ?_⟩
      have hm'' := Option.some.inj hm'
      subst hm''
      have e : ({ Miller.fromUvw lat (U - T) (V - T) W with
          coordinate_format := CoordinateFormat.UVTW } : Miller).uvw = ![U - T, V - T, W] :=
        uvw_fromUvw lat (U - T) (V - T) W
      unfold Miller.UVTW
      rw [e]
      simp only [Matrix.cons_val_zero, Matrix.cons_val_one, Matrix.head_cons,
        Matrix.cons_val_two, Matrix.tail_cons]
      have hT : T = -(U + V) := by linarith
      subst hT
      refine Prod.ext ?_ (Prod.ext ?_ (Prod.ext ?_ rfl)) <;> dsimp only <;> ring
    · cases hm'

theorem fromHkil_accepts_valid :
    (Miller.fromHkil ⟨1, 1, one_mul 1, one_mul 1⟩ 1 1 (-2) 3).isSome = true := by
  unfold Miller.fromHkil
  rw [if_pos (by norm_num)]
  rfl

theorem fromHkil_rejects_invalid :
    Miller.fromHkil ⟨1, 1, one_mul 1, one_mul 1⟩ 1 1 1 3 = none := by
  unfold Miller.fromHkil
  rw [if_neg (by norm_num)]

/-! Pole-density normalization to multiples of random density. -/

theorem sum_map_div (l : List ℝ) (k : ℝ) : (l.map fun x => x / k).sum = l.sum / k := by
  induction l with
  | nil => simp
  | cons x xs ih => simp [ih, add_div]

theorem randomDensityStd_strict_anti {n N1 N2 : ℕ} (hn : 2 ≤ n) (h1 : 0 < N1)
    (h12 : N1 < N2) : randomDensityStd n N2 < randomDensityStd n N1 := by
  have hn' : (2 : ℝ) ≤ (n : ℝ) := by exact_mod_cast hn
  unfold randomDensityStd
  apply Real.sqrt_lt_sqrt
  · apply div_nonneg
    · linarith
    · positivity
  · apply div_lt_div_of_pos_left
    · linarith
    · exact_mod_cast h1
    · exact_mod_cast h12

/-- C7: the pole-density estimate is normalized to MRD units by dividing the
accumulated per-cell values by the count expected under a uniform distribution
of the same total weight, so a uniformly distributed input yields exactly 1 in
every cell (the expected value of uniformly-random input), the mean cell value
is always 1, and the idealized per-cell standard deviation for N random
directions strictly decreases along N = 10⁴, 10⁵, 10⁶, 10⁷. -/
theorem C7_mrd_normalization (n : ℕ) (c : ℝ) (w : List ℝ) (hn : 2 ≤ n) (hc : c ≠ 0)
    (hw : w.sum ≠ 0) :
    mrdDensity (List.replicate n c) = List.replicate n 1 ∧
    (mrdDensity w).sum = w.length ∧
    randomDensityStd n 100000 < randomDensityStd n 10000 ∧
    randomDensityStd n 1000000 < randomDensityStd n 100000 ∧
    randomDensityStd n 10000000 < randomDensityStd n 1000000 := by
  have hn0 : (n : ℝ) ≠ 0 := Nat.cast_ne_zero.2 (by omega)
  refine ⟨?_, ?_, ?_, ?_, ?_⟩
  · unfold mrdDensity
    rw [List.map_replicate, List.sum_replicate, List.length_replicate]
    congr 1
    rw [nsmul_eq_mul]
    field_simp
  · have hL : w.length ≠ 0 := by
      intro h0
      rw [List.eq_nil_of_length_eq_zero h0] at hw
      exact hw rfl
    have hL' : (w.length : ℝ) ≠ 0 := Nat.cast_ne_zero.2 hL
    unfold mrdDensity
    rw [sum_map_div]
    field_simp
  · exact randomDensityStd_strict_anti hn (by norm_num) (by norm_num)
  · exact randomDensityStd_strict_anti hn (by norm_num) (by norm_num)
  · exact randomDensityStd_strict_anti hn (by norm_num) (by norm_num)

/-- Witness for C7: a four-cell mesh, uniform weight 2, and the concrete
accumulated weights `[1, 3]`. -/
theorem C7_mrd_normalization_witness :
    mrdDensity (List.replicate 4 (2 : ℝ)) = List.replicate 4 1 ∧
    (mrdDensity [(1 : ℝ), 3]).sum = ([(1 : ℝ), 3] : List ℝ).length ∧
    randomDensityStd 4 100000 < randomDensityStd 4 10000 ∧
    randomDensityStd 4 1000000 < randomDensityStd 4 100000 ∧
    randomDensityStd 4 10000000 < randomDensityStd 4 1000000 :=
  C7_mrd_normalization 4 2 [1, 3] (by norm_num) (by norm_num)
    (by norm_num [List.sum_cons])

/-! The Σ7a twin scenario. -/

/-- C8: the misorientation of 64.40° about the axis (1,0,0), mapped into the
fundamental zone of a symmetry pair such as (D6, D6), agrees — as measured by
the minimum rotation angle over all symmetry equivalents — with the
theoretical Σ7a twin misorientation of the same angle and axis: the
symmetry-aware distance between the reduced representative and the theoretical
twin is exactly 0, in particular within the 4.5° design tolerance. -/
theorem C8_sigma7a_twin_agreement (G1 G2 : List (Quaternion ℝ))
    (hG1 : IsSymGroup G1) (hG2 : IsSymGroup G2) :
    symDist G1 G2 (map_into_symmetry_reduced_zone G1 G2 sigma7a) sigma7a = 0 ∧
    symDist G1 G2 (map_into_symmetry_reduced_zone G1 G2 sigma7a) sigma7a
      ≤ 4.5 * π / 180 := by
  have hrmem : map_into_symmetry_reduced_zone G1 G2 sigma7a ∈ candidates G1 G2 sigma7a :=
    reduce_mem hG1.one_mem hG2.one_mem
  have hrunit : normSq (map_into_symmetry_reduced_zone G1 G2 sigma7a) = 1 := by
    rcases mem_candidates.1 hrmem with ⟨g, hg, h, hh, heq⟩
    rw [heq]
    exact normSq_unit_mul (normSq_unit_mul (hG1.unit g hg) normSq_sigma7a) (hG2.unit h hh)
  have hzero : symDist G1 G2 (map_into_symmetry_reduced_zone G1 G2 sigma7a) sigma7a = 0 := by
    apply le_antisymm
    · calc symDist G1 G2 (map_into_symmetry_reduced_zone G1 G2 sigma7a) sigma7a
          ≤ qdist (map_into_symmetry_reduced_zone G1 G2 sigma7a)
            (map_into_symmetry_reduced_zone G1 G2 sigma7a) := symDist_le_candidate hrmem
        _ = 0 := qdist_self hrunit
    · exact symDist_nonneg _ _ _ _
  refine ⟨hzero, ?_⟩
  rw [hzero]
  have hpi := Real.pi_pos
  positivity

/-- Witness for C8 at the hexagonal symmetry pair (D6, D6) named by the
scenario. -/
theorem C8_sigma7a_twin_agreement_witness :
    symDist D6 D6 (map_into_symmetry_reduced_zone D6 D6 sigma7a) sigma7a = 0 ∧
    symDist D6 D6 (map_into_symmetry_reduced_zone D6 D6 sigma7a) sigma7a
      ≤ 4.5 * π / 180 :=
  C8_sigma7a_twin_agreement D6 D6 isSymGroup_D6 isSymGroup_D6

end Orix

end
